import Mathlib

/-!
# Approximate n-th roots: bit trick followed by one Halley step

A shallow embedding of `src/approximate_roots.h`.

* The template parameter `n : uint32_t` is a natural number; every operation the
  source performs on it in 32-bit unsigned arithmetic (`n - 1`, `n - 2`,
  `n * (n - 1)`, `magic - (packed.i / n)`) is taken modulo `2 ^ 32`
  (modulo `2 ^ 64` for the `uint64_t` of the double overloads).
* The value type `T` is any field: the arithmetic of `halley_step` is exact.
* A `float` / `double` argument is given by its bit pattern (the `uint32_t` /
  `uint64_t` member of the source union); `float_value` / `double_value` give the
  rational number such a pattern denotes under IEEE-754, `none` for an infinity or a NaN.
-/

set_option maxRecDepth 10000
set_option exponentiation.threshold 4096

namespace approximate_roots

/-! ## Machine integers -/

/-- Subtraction of `uint32_t` values: the result is reduced modulo `2 ^ 32`. -/
def sub_u32 (a b : Nat) : Nat := (a % 2 ^ 32 + 2 ^ 32 - b % 2 ^ 32) % 2 ^ 32

/-- Multiplication of `uint32_t` values: the result is reduced modulo `2 ^ 32`. -/
def mul_u32 (a b : Nat) : Nat := (a * b) % 2 ^ 32

/-- Subtraction of `uint64_t` values: the result is reduced modulo `2 ^ 64`. -/
def sub_u64 (a b : Nat) : Nat := (a % 2 ^ 64 + 2 ^ 64 - b % 2 ^ 64) % 2 ^ 64

/-! ## `ct_pow` -/

/-- The source `ct_pow<n, T>(x)`: base case `n == 0` returns `1`; otherwise
`part = ct_pow<n / 2>(x)` and the result is `x * part * part` when `n & 1`,
else `part * part`. -/
def ct_pow {T : Type} [Mul T] [One T] (n : Nat) (x : T) : T :=
  if _h : n = 0 then 1
  else
    let part := ct_pow (n / 2) x
    if n &&& 1 ≠ 0 then x * part * part else part * part
termination_by n
decreasing_by omega

/-! ## `halley_step` -/

/-- The local `fx = ct_pow<n>(x0) - value` of `halley_step`. -/
def halley_fx {T : Type} [Field T] (n : Nat) (x0 value : T) : T :=
  ct_pow n x0 - value

/-- The local `fpx = n * ct_pow<n - 1>(x0)` of `halley_step`; `n - 1` is a
`uint32_t` subtraction. -/
def halley_fpx {T : Type} [Field T] (n : Nat) (x0 : T) : T :=
  (n : T) * ct_pow (sub_u32 n 1) x0

/-- The local `fppx = n * (n - 1) * ct_pow<n - 2>(x0)` of `halley_step`; the
coefficient `n * (n - 1)` is computed in `uint32_t` before it is converted to `T`. -/
def halley_fppx {T : Type} [Field T] (n : Nat) (x0 : T) : T :=
  ((mul_u32 n (sub_u32 n 1) : Nat) : T) * ct_pow (sub_u32 n 2) x0

/-- The local `numer = 2 * fx * fpx` of `halley_step`. -/
def halley_numer {T : Type} [Field T] (n : Nat) (x0 value : T) : T :=
  2 * halley_fx n x0 value * halley_fpx n x0

/-- The local `denom = 2 * fpx * fpx - fx * fppx` of `halley_step`. -/
def halley_denom {T : Type} [Field T] (n : Nat) (x0 value : T) : T :=
  2 * halley_fpx n x0 * halley_fpx n x0 - halley_fx n x0 value * halley_fppx n x0

/-- The source `halley_step<n, T>(x0, value)`: `x1 = x0 - numer / denom`. -/
def halley_step {T : Type} [Field T] (n : Nat) (x0 value : T) : T :=
  x0 - halley_numer n x0 value / halley_denom n x0 value


/-- The function whose root is sought, from the comment on `halley_step`:
`f(x) = x^n - value`. -/
def root_fn (n : Nat) (value : ℝ) : ℝ → ℝ := fun t => t ^ n - value

/-! ## Floating-point bit patterns -/

/-- The rational number denoted by an IEEE-754 binary bit pattern with `eb` exponent
bits and `mb` fraction bits (sign bit on top): `none` for an infinity or a NaN
(exponent field all ones); a subnormal (exponent field `0`) is
`fraction * 2 ^ (1 - bias - mb)`, a normal number is
`(2 ^ mb + fraction) * 2 ^ (exponent - bias - mb)`, with `bias = 2 ^ (eb - 1) - 1`. -/
def ieee_value (eb mb bits : Nat) : Option ℚ :=
  let sign := bits / 2 ^ (eb + mb) % 2
  let e := bits / 2 ^ mb % 2 ^ eb
  let m := bits % 2 ^ mb
  if e = 2 ^ eb - 1 then none
  else
    let mag : ℚ :=
      (if e = 0 then ((2 * m : Nat) : ℚ) else (((2 ^ mb + m) * 2 ^ e : Nat) : ℚ))
        / ((2 ^ (2 ^ (eb - 1) - 1 + mb) : Nat) : ℚ)
    some (if sign = 1 then -mag else mag)

/-- The magnitude of a sign-free finite bit pattern with `mb` fraction bits, in units of
the smallest subnormal: `2 * fraction` for a subnormal, `(2 ^ mb + fraction) * 2 ^ exponent`
for a normal number (the numerator of `ieee_value`). -/
def ieee_scaled (mb bits : Nat) : Nat :=
  if bits / 2 ^ mb = 0 then 2 * (bits % 2 ^ mb)
  else (2 ^ mb + bits % 2 ^ mb) * 2 ^ (bits / 2 ^ mb)

/-- The value of the `float` whose `uint32_t` image is `bits` (binary32). -/
def float_value (bits : Nat) : Option ℚ := ieee_value 8 23 bits

/-- The value of the `double` whose `uint64_t` image is `bits` (binary64). -/
def double_value (bits : Nat) : Option ℚ := ieee_value 11 52 bits

/-! ## The bit trick and the entry points -/

/-- The assignment `packed.i = magic - (packed.i / n)` of
`float_approx_with_halley_step`, on `uint32_t`: the new bit pattern of the union. -/
def float_guess_bits (magic n bits : Nat) : Nat := sub_u32 magic (bits / n)

/-- The assignment `packed.i = magic - (packed.i / n)` of
`double_approx_with_halley_step`, on `uint64_t`. -/
def double_guess_bits (magic n bits : Nat) : Nat := sub_u64 magic (bits / n)

/-- The Halley step on an initial guess `x0` and the argument `v`, both possibly not
finite: `none` when one of them is an infinity or a NaN or when the divisor `denom`
is zero (the source then returns an infinity or a NaN). -/
def halley_step_checked (n : Nat) (x0 v : Option ℚ) : Option ℚ :=
  match x0, v with
  | some x0, some v => if halley_denom n x0 v = 0 then none else some (halley_step n x0 v)
  | _, _ => none

/-- The source `float_approx_with_halley_step<magic, n>(x)`, `x` given by its bit
pattern: `halley_step<n>(packed.f, x)` after the bit trick, in exact arithmetic. -/
def float_approx_with_halley_step (magic n x : Nat) : Option ℚ :=
  halley_step_checked n (float_value (float_guess_bits magic n x)) (float_value x)

/-- The source `double_approx_with_halley_step<magic, n>(x)`, `x` given by its bit
pattern. -/
def double_approx_with_halley_step (magic n x : Nat) : Option ℚ :=
  halley_step_checked n (double_value (double_guess_bits magic n x)) (double_value x)

/-- The magic constant of the `float` entry point of degree `n` (`approx_sqrt` ..
`approx_tenth_root`); `0` outside the degrees the source provides. -/
def float_magic (n : Nat) : Nat :=
  match n with
  | 2 => 0x1fbb67ad
  | 3 => 0x2a511949
  | 4 => 0x2f9b5088
  | 5 => 0x32c82ec7
  | 6 => 0x34e5e317
  | 7 => 0x3668ef49
  | 8 => 0x378b0a48
  | 9 => 0x38714eaf
  | 10 => 0x391cabf0
  | _ => 0

/-- The magic constant of the `double` entry point of degree `n`; `0` outside the
degrees the source provides. -/
def double_magic (n : Nat) : Nat :=
  match n with
  | 2 => 0x1ff76cf48689feb3
  | 3 => 0x2a9f77a7a61a7e7a
  | 4 => 0x2ff36a476a29c002
  | 5 => 0x3325d3e38d3b8000
  | 6 => 0x3547679b9fb94000
  | 7 => 0x36cd1e16377a0000
  | 8 => 0x37f16397f5297fd4
  | 9 => 0x38d4b87bc4113ff5
  | 10 => 0x398a9464ab857fdf
  | _ => 0

/-- The source `approx_sqrt(float)`. -/
def approx_sqrt_float (x : Nat) : Option ℚ :=
  float_approx_with_halley_step 0x1fbb67ad 2 x

/-- The source `approx_cbrt(float)`. -/
def approx_cbrt_float (x : Nat) : Option ℚ :=
  float_approx_with_halley_step 0x2a511949 3 x

/-- The source `approx_forth_root(float)`. -/
def approx_forth_root_float (x : Nat) : Option ℚ :=
  float_approx_with_halley_step 0x2f9b5088 4 x

/-- The source `approx_fifth_root(float)`. -/
def approx_fifth_root_float (x : Nat) : Option ℚ :=
  float_approx_with_halley_step 0x32c82ec7 5 x

/-- The source `approx_sixth_root(float)`. -/
def approx_sixth_root_float (x : Nat) : Option ℚ :=
  float_approx_with_halley_step 0x34e5e317 6 x

/-- The source `approx_seventh_root(float)`. -/
def approx_seventh_root_float (x : Nat) : Option ℚ :=
  float_approx_with_halley_step 0x3668ef49 7 x

/-- The source `approx_eighth_root(float)`. -/
def approx_eighth_root_float (x : Nat) : Option ℚ :=
  float_approx_with_halley_step 0x378b0a48 8 x

/-- The source `approx_ninth_root(float)`. -/
def approx_ninth_root_float (x : Nat) : Option ℚ :=
  float_approx_with_halley_step 0x38714eaf 9 x

/-- The source `approx_tenth_root(float)`. -/
def approx_tenth_root_float (x : Nat) : Option ℚ :=
  float_approx_with_halley_step 0x391cabf0 10 x

/-- The source `approx_sqrt(double)`. -/
def approx_sqrt_double (x : Nat) : Option ℚ :=
  double_approx_with_halley_step 0x1ff76cf48689feb3 2 x

/-- The source `approx_cbrt(double)`. -/
def approx_cbrt_double (x : Nat) : Option ℚ :=
  double_approx_with_halley_step 0x2a9f77a7a61a7e7a 3 x

/-- The source `approx_forth_root(double)`. -/
def approx_forth_root_double (x : Nat) : Option ℚ :=
  double_approx_with_halley_step 0x2ff36a476a29c002 4 x

/-- The source `approx_fifth_root(double)`. -/
def approx_fifth_root_double (x : Nat) : Option ℚ :=
  double_approx_with_halley_step 0x3325d3e38d3b8000 5 x

/-- The source `approx_sixth_root(double)`. -/
def approx_sixth_root_double (x : Nat) : Option ℚ :=
  double_approx_with_halley_step 0x3547679b9fb94000 6 x

/-- The source `approx_seventh_root(double)`. -/
def approx_seventh_root_double (x : Nat) : Option ℚ :=
  double_approx_with_halley_step 0x36cd1e16377a0000 7 x

/-- The source `approx_eighth_root(double)`. -/
def approx_eighth_root_double (x : Nat) : Option ℚ :=
  double_approx_with_halley_step 0x37f16397f5297fd4 8 x

/-- The source `approx_ninth_root(double)`. -/
def approx_ninth_root_double (x : Nat) : Option ℚ :=
  double_approx_with_halley_step 0x38d4b87bc4113ff5 9 x

/-- The source `approx_tenth_root(double)`. -/
def approx_tenth_root_double (x : Nat) : Option ℚ :=
  double_approx_with_halley_step 0x398a9464ab857fdf 10 x

/-- The `float` entry point of degree `n`, on the bit pattern of its argument; the
source has one for each `n` in `2 .. 10`. -/
def approx_root_float (n x : Nat) : Option ℚ :=
  match n with
  | 2 => approx_sqrt_float x
  | 3 => approx_cbrt_float x
  | 4 => approx_forth_root_float x
  | 5 => approx_fifth_root_float x
  | 6 => approx_sixth_root_float x
  | 7 => approx_seventh_root_float x
  | 8 => approx_eighth_root_float x
  | 9 => approx_ninth_root_float x
  | 10 => approx_tenth_root_float x
  | _ => none

/-- The `double` entry point of degree `n`, on the bit pattern of its argument; the
source has one for each `n` in `2 .. 10`. -/
def approx_root_double (n x : Nat) : Option ℚ :=
  match n with
  | 2 => approx_sqrt_double x
  | 3 => approx_cbrt_double x
  | 4 => approx_forth_root_double x
  | 5 => approx_fifth_root_double x
  | 6 => approx_sixth_root_double x
  | 7 => approx_seventh_root_double x
  | 8 => approx_eighth_root_double x
  | 9 => approx_ninth_root_double x
  | 10 => approx_tenth_root_double x
  | _ => none

/-- A result `r` is finite and within relative tolerance `tol` of `target`:
`|r - target| ≤ tol * target`. -/
def within_tolerance (r : Option ℚ) (target tol : ℚ) : Prop :=
  match r with
  | some q => |q - target| ≤ tol * target
  | none => False

/-- The accuracy requirement on a result `r` for the argument `x` at degree `n`: both
are finite and `|r ^ n - x| ≤ tol * x`. -/
def root_accuracy (n : Nat) (r x : Option ℚ) (tol : ℚ) : Prop :=
  match r, x with
  | some q, some v => |q ^ n - v| ≤ tol * v
  | _, _ => False

/-- The coarse requirement on an initial guess `x0` for the argument `x` at degree `n`:
both are finite, `x0 > 0` and `0.9 ^ n * x ≤ x0 ^ n ≤ 1.1 ^ n * x`. -/
def guess_accuracy (n : Nat) (x0 x : Option ℚ) : Prop :=
  match x0, x with
  | some g, some v => 0 < g ∧ (9 / 10) ^ n * v ≤ g ^ n ∧ g ^ n ≤ (11 / 10) ^ n * v
  | _, _ => False

/-- Strict order on results: both are finite and the first is below the second. -/
def result_lt (r1 r2 : Option ℚ) : Prop :=
  match r1, r2 with
  | some a, some b => a < b
  | _, _ => False

/-- Order on results: both are finite and the first is not above the second. -/
def result_le (r1 r2 : Option ℚ) : Prop :=
  match r1, r2 with
  | some a, some b => a ≤ b
  | _, _ => False

/-! ## Helper lemmas on `ct_pow` -/

theorem ct_pow_zero {T : Type} [Mul T] [One T] (x : T) : ct_pow 0 x = 1 := by
  rw [ct_pow]; simp

theorem ct_pow_pos {T : Type} [Mul T] [One T] (n : Nat) (hn : n ≠ 0) (x : T) :
    ct_pow n x =
      if n &&& 1 ≠ 0 then x * ct_pow (n / 2) x * ct_pow (n / 2) x
      else ct_pow (n / 2) x * ct_pow (n / 2) x := by
  rw [ct_pow]; simp [hn]

theorem ct_pow_pow {T : Type} [Monoid T] (n : Nat) (x : T) : ct_pow n x = x ^ n := by
  induction n using Nat.strong_induction_on with
  | _ n ih =>
    by_cases hn : n = 0
    · subst hn; simp [ct_pow_zero]
    · rw [ct_pow_pos n hn, ih (n / 2) (by omega), Nat.and_one_is_mod]
      have h2 := Nat.div_add_mod n 2
      rcases Nat.mod_two_eq_zero_or_one n with h | h
      · have hk : n = n / 2 + n / 2 := by omega
        simp only [h, ne_eq, not_true_eq_false, if_false]
        rw [← pow_add, ← hk]
      · have hk : n = 1 + n / 2 + n / 2 := by omega
        simp only [h, ne_eq, one_ne_zero, not_false_eq_true, if_true]
        rw [← pow_succ', ← pow_add]
        congr 1
        omega


/-! ## Helper lemmas on the 32-bit arithmetic of `halley_step` -/

theorem sub_u32_one (n : Nat) (h1 : 1 ≤ n) (h : n < 2 ^ 32) : sub_u32 n 1 = n - 1 := by
  unfold sub_u32
  omega

theorem sub_u32_two (n : Nat) (h2 : 2 ≤ n) (h : n < 2 ^ 32) : sub_u32 n 2 = n - 2 := by
  unfold sub_u32
  omega

theorem mul_pred_lt (n : Nat) (h : n ≤ 65536) : n * (n - 1) < 2 ^ 32 := by
  have h1 : n * (n - 1) ≤ 65536 * 65535 := Nat.mul_le_mul h (by omega)
  omega

theorem mul_u32_pred (n : Nat) (h : n ≤ 65536) : mul_u32 n (n - 1) = n * (n - 1) := by
  unfold mul_u32
  exact Nat.mod_eq_of_lt (mul_pred_lt n h)

theorem halley_fpx_eq {T : Type} [Field T] (n : Nat) (h1 : 1 ≤ n) (h : n < 2 ^ 32) (x0 : T) :
    halley_fpx n x0 = (n : T) * x0 ^ (n - 1) := by
  rw [halley_fpx, sub_u32_one n h1 h, ct_pow_pow]

theorem halley_fppx_eq {T : Type} [Field T] (n : Nat) (h2 : 2 ≤ n) (h : n ≤ 65536) (x0 : T) :
    halley_fppx n x0 = (n : T) * ((n - 1 : Nat) : T) * x0 ^ (n - 2) := by
  have hlt : n < 2 ^ 32 := by omega
  rw [halley_fppx, sub_u32_one n (by omega) hlt, sub_u32_two n h2 hlt, mul_u32_pred n h,
    ct_pow_pow, Nat.cast_mul]

theorem deriv_pow_sub_const (n : Nat) (value : ℝ) :
    deriv (fun t : ℝ => t ^ n - value) = fun t => (n : ℝ) * t ^ (n - 1) := by
  funext t
  simp

theorem deriv_deriv_pow_sub_const (n : Nat) (value : ℝ) :
    deriv (deriv (fun t : ℝ => t ^ n - value)) =
      fun t => (n : ℝ) * ((n - 1 : Nat) : ℝ) * t ^ (n - 2) := by
  rw [deriv_pow_sub_const]
  funext t
  simp [Nat.sub_sub, mul_assoc]

/-! ## Helper lemmas on the Halley step over the reals -/

theorem mul_u32_le (a b : Nat) : mul_u32 a b ≤ a * b := by
  unfold mul_u32
  exact Nat.mod_le _ _

/-- The divisor of the Halley step with the wrapped coefficient `c = n * (n - 1) mod 2 ^ 32`
factored: `denom = x0 ^ m * ((2 n^2 - c) * x0 ^ n + c * value)` for `n = m + 2`. -/
theorem halley_denom_factor (m : Nat) (h : m + 2 < 2 ^ 32) (x0 value : ℝ) :
    halley_denom (m + 2) x0 value =
      x0 ^ m * ((2 * ((m : ℝ) + 2) ^ 2 - (mul_u32 (m + 2) (m + 1) : ℝ)) * x0 ^ (m + 2)
        + (mul_u32 (m + 2) (m + 1) : ℝ) * value) := by
  have e1 : sub_u32 (m + 2) 1 = m + 1 := by rw [sub_u32_one _ (by omega) h]; rfl
  have e2 : sub_u32 (m + 2) 2 = m := by rw [sub_u32_two _ (by omega) h]; rfl
  rw [halley_denom, halley_fx, halley_fpx, halley_fppx, e1, e2, ct_pow_pow, ct_pow_pow,
    ct_pow_pow]
  push_cast
  ring

theorem halley_denom_pos_aux (m : Nat) (h : m + 2 < 2 ^ 32) (x0 value : ℝ)
    (hx : 0 < x0) (hv : 0 < value) : 0 < halley_denom (m + 2) x0 value := by
  rw [halley_denom_factor m h]
  have hc : (mul_u32 (m + 2) (m + 1) : ℝ) ≤ ((m : ℝ) + 2) * ((m : ℝ) + 1) := by
    have := mul_u32_le (m + 2) (m + 1)
    exact_mod_cast this
  have hc0 : (0 : ℝ) ≤ (mul_u32 (m + 2) (m + 1) : ℝ) := Nat.cast_nonneg _
  have hm : (0 : ℝ) ≤ (m : ℝ) := Nat.cast_nonneg _
  have hpos : 0 < 2 * ((m : ℝ) + 2) ^ 2 - (mul_u32 (m + 2) (m + 1) : ℝ) := by nlinarith
  have hp1 : 0 < x0 ^ m := pow_pos hx m
  have hp2 : 0 < x0 ^ (m + 2) := pow_pos hx _
  have : 0 < (2 * ((m : ℝ) + 2) ^ 2 - (mul_u32 (m + 2) (m + 1) : ℝ)) * x0 ^ (m + 2)
      + (mul_u32 (m + 2) (m + 1) : ℝ) * value := by positivity
  positivity

/-- For a degree without wrap-around the divisor has the closed form
`n * x0 ^ (n - 2) * ((n + 1) * x0 ^ n + (n - 1) * value)`. -/
theorem halley_denom_closed (n : Nat) (h2 : 2 ≤ n) (h : n ≤ 65536) (x0 value : ℝ) :
    halley_denom n x0 value =
      (n : ℝ) * x0 ^ (n - 2) * (((n : ℝ) + 1) * x0 ^ n + ((n : ℝ) - 1) * value) := by
  obtain ⟨m, rfl⟩ := Nat.exists_eq_add_of_le' h2
  rw [halley_denom, halley_fx, halley_fpx_eq _ (by omega) (by omega),
    halley_fppx_eq _ h2 h, ct_pow_pow]
  simp only [Nat.add_sub_cancel]
  have e1 : m + 2 - 1 = m + 1 := by omega
  rw [e1]
  push_cast
  ring

/-- For a degree without wrap-around:
`x1 = x0 * ((n - 1) * x0 ^ n + (n + 1) * value) / ((n + 1) * x0 ^ n + (n - 1) * value)`. -/
theorem halley_step_closed (n : Nat) (h2 : 2 ≤ n) (h : n ≤ 65536) (x0 value : ℝ)
    (hx : x0 ≠ 0) (hd : ((n : ℝ) + 1) * x0 ^ n + ((n : ℝ) - 1) * value ≠ 0) :
    halley_step n x0 value =
      x0 * (((n : ℝ) - 1) * x0 ^ n + ((n : ℝ) + 1) * value) /
        (((n : ℝ) + 1) * x0 ^ n + ((n : ℝ) - 1) * value) := by
  have hn0 : (n : ℝ) ≠ 0 := by
    have : 0 < n := by omega
    exact_mod_cast this.ne'
  rw [halley_step, halley_denom_closed n h2 h, halley_numer, halley_fx,
    halley_fpx_eq _ (by omega) (by omega), ct_pow_pow]
  obtain ⟨m, rfl⟩ := Nat.exists_eq_add_of_le' h2
  simp only [Nat.add_sub_cancel]
  have e1 : m + 2 - 1 = m + 1 := by omega
  rw [e1]
  have hp : x0 ^ m ≠ 0 := pow_ne_zero _ hx
  push_cast at hd hn0 ⊢
  rw [sub_eq_iff_eq_add, div_add_div _ _ hd (mul_ne_zero (mul_ne_zero hn0 hp) hd),
    eq_div_iff (mul_ne_zero hd (mul_ne_zero (mul_ne_zero hn0 hp) hd))]
  ring

/-! ## The Halley step does not overshoot -/

theorem pow_tangent_nonneg (k : Nat) (a b : ℝ) (ha : 0 ≤ a) (hb : 0 ≤ b) :
    0 ≤ (k : ℝ) * b ^ (k + 1) - ((k : ℝ) + 1) * a * b ^ k + a ^ (k + 1) := by
  induction k with
  | zero => simp
  | succ k ih =>
    have e : ((k + 1 : ℕ) : ℝ) * b ^ (k + 1 + 1) - (((k + 1 : ℕ) : ℝ) + 1) * a * b ^ (k + 1)
          + a ^ (k + 1 + 1)
        = a * ((k : ℝ) * b ^ (k + 1) - ((k : ℝ) + 1) * a * b ^ k + a ^ (k + 1))
          + ((k : ℝ) + 1) * b ^ k * (a - b) ^ 2 := by
      push_cast; ring
    rw [e]
    have h1 : 0 ≤ a * ((k : ℝ) * b ^ (k + 1) - ((k : ℝ) + 1) * a * b ^ k + a ^ (k + 1)) :=
      mul_nonneg ha ih
    have h2 : 0 ≤ ((k : ℝ) + 1) * b ^ k * (a - b) ^ 2 := by positivity
    linarith

/-- With `n = m + 2`: `(n - 1) a^(n+1) - (n + 1) a^n b + (n + 1) a b^n - (n - 1) b^(n+1)`
is positive for `0 < b < a` (it has the factor `(a - b)^3`). -/
theorem halley_gap_pos (m : Nat) (a b : ℝ) (hb : 0 < b) (hab : b < a) :
    0 < ((m : ℝ) + 1) * a ^ (m + 3) - ((m : ℝ) + 3) * a ^ (m + 2) * b
      + ((m : ℝ) + 3) * a * b ^ (m + 2) - ((m : ℝ) + 1) * b ^ (m + 3) := by
  have ha : 0 < a := lt_trans hb hab
  induction m with
  | zero =>
    have h : 0 < (a - b) ^ 3 := pow_pos (sub_pos.mpr hab) 3
    have e : (((0 : ℕ) : ℝ) + 1) * a ^ (0 + 3) - (((0 : ℕ) : ℝ) + 3) * a ^ (0 + 2) * b
          + (((0 : ℕ) : ℝ) + 3) * a * b ^ (0 + 2) - (((0 : ℕ) : ℝ) + 1) * b ^ (0 + 3)
        = (a - b) ^ 3 := by
      push_cast; ring
    rw [e]
    exact h
  | succ m ih =>
    have hG := pow_tangent_nonneg (m + 2) a b ha.le hb.le
    have e : (((m + 1 : ℕ) : ℝ) + 1) * a ^ (m + 1 + 3) - (((m + 1 : ℕ) : ℝ) + 3) * a ^ (m + 1 + 2) * b
          + (((m + 1 : ℕ) : ℝ) + 3) * a * b ^ (m + 1 + 2) - (((m + 1 : ℕ) : ℝ) + 1) * b ^ (m + 1 + 3)
        = a * (((m : ℝ) + 1) * a ^ (m + 3) - ((m : ℝ) + 3) * a ^ (m + 2) * b
            + ((m : ℝ) + 3) * a * b ^ (m + 2) - ((m : ℝ) + 1) * b ^ (m + 3))
          + (a - b) * (((m + 2 : ℕ) : ℝ) * b ^ (m + 2 + 1) - (((m + 2 : ℕ) : ℝ) + 1) * a * b ^ (m + 2)
            + a ^ (m + 2 + 1)) := by
      push_cast; ring
    rw [e]
    have h1 := mul_pos ha ih
    have h2 := mul_nonneg (sub_pos.mpr hab).le hG
    linarith

/-- The refined estimate, in closed form with `n = m + 2`, stays on the side of the root
`t` (`t ^ n = value`) on which `x0` lies, strictly between `t` and `x0`. -/
theorem closed_form_between (m : Nat) (x0 t : ℝ) (hx : 0 < x0) (ht : 0 < t) :
    (t < x0 →
      t < x0 * (((m : ℝ) + 1) * x0 ^ (m + 2) + ((m : ℝ) + 3) * t ^ (m + 2)) /
        (((m : ℝ) + 3) * x0 ^ (m + 2) + ((m : ℝ) + 1) * t ^ (m + 2)) ∧
      x0 * (((m : ℝ) + 1) * x0 ^ (m + 2) + ((m : ℝ) + 3) * t ^ (m + 2)) /
        (((m : ℝ) + 3) * x0 ^ (m + 2) + ((m : ℝ) + 1) * t ^ (m + 2)) < x0) ∧
    (x0 < t →
      x0 < x0 * (((m : ℝ) + 1) * x0 ^ (m + 2) + ((m : ℝ) + 3) * t ^ (m + 2)) /
        (((m : ℝ) + 3) * x0 ^ (m + 2) + ((m : ℝ) + 1) * t ^ (m + 2)) ∧
      x0 * (((m : ℝ) + 1) * x0 ^ (m + 2) + ((m : ℝ) + 3) * t ^ (m + 2)) /
        (((m : ℝ) + 3) * x0 ^ (m + 2) + ((m : ℝ) + 1) * t ^ (m + 2)) < t) := by
  have hu : 0 < x0 ^ (m + 2) := pow_pos hx _
  have hw : 0 < t ^ (m + 2) := pow_pos ht _
  have hm : (0 : ℝ) ≤ (m : ℝ) := Nat.cast_nonneg _
  have hB : 0 < ((m : ℝ) + 3) * x0 ^ (m + 2) + ((m : ℝ) + 1) * t ^ (m + 2) := by positivity
  constructor
  · intro hlt
    have hp : t ^ (m + 2) < x0 ^ (m + 2) := pow_lt_pow_left₀ hlt ht.le (by omega)
    have hH := halley_gap_pos m x0 t ht hlt
    constructor
    · rw [lt_div_iff₀ hB]
      have e : x0 * (((m : ℝ) + 1) * x0 ^ (m + 2) + ((m : ℝ) + 3) * t ^ (m + 2))
          - t * (((m : ℝ) + 3) * x0 ^ (m + 2) + ((m : ℝ) + 1) * t ^ (m + 2))
          = ((m : ℝ) + 1) * x0 ^ (m + 3) - ((m : ℝ) + 3) * x0 ^ (m + 2) * t
            + ((m : ℝ) + 3) * x0 * t ^ (m + 2) - ((m : ℝ) + 1) * t ^ (m + 3) := by ring
      linarith
    · rw [div_lt_iff₀ hB]
      have : ((m : ℝ) + 1) * x0 ^ (m + 2) + ((m : ℝ) + 3) * t ^ (m + 2)
          < ((m : ℝ) + 3) * x0 ^ (m + 2) + ((m : ℝ) + 1) * t ^ (m + 2) := by nlinarith
      exact mul_lt_mul_of_pos_left this hx
  · intro hlt
    have hp : x0 ^ (m + 2) < t ^ (m + 2) := pow_lt_pow_left₀ hlt hx.le (by omega)
    have hH := halley_gap_pos m t x0 hx hlt
    constructor
    · rw [lt_div_iff₀ hB]
      have : ((m : ℝ) + 3) * x0 ^ (m + 2) + ((m : ℝ) + 1) * t ^ (m + 2)
          < ((m : ℝ) + 1) * x0 ^ (m + 2) + ((m : ℝ) + 3) * t ^ (m + 2) := by nlinarith
      exact mul_lt_mul_of_pos_left this hx
    · rw [div_lt_iff₀ hB]
      have e : t * (((m : ℝ) + 3) * x0 ^ (m + 2) + ((m : ℝ) + 1) * t ^ (m + 2))
          - x0 * (((m : ℝ) + 1) * x0 ^ (m + 2) + ((m : ℝ) + 3) * t ^ (m + 2))
          = ((m : ℝ) + 1) * t ^ (m + 3) - ((m : ℝ) + 3) * t ^ (m + 2) * x0
            + ((m : ℝ) + 3) * t * x0 ^ (m + 2) - ((m : ℝ) + 1) * x0 ^ (m + 3) := by ring
      linarith
/-! ## Helper lemmas on the bit trick and on the order of bit patterns -/

theorem sub_u32_no_wrap (M k : Nat) (hM : M < 2 ^ 32) (hk : k ≤ M) : sub_u32 M k = M - k := by
  unfold sub_u32
  omega

theorem sub_u64_no_wrap (M k : Nat) (hM : M < 2 ^ 64) (hk : k ≤ M) : sub_u64 M k = M - k := by
  unfold sub_u64
  omega

theorem div_succ_le_of_add_le (n a b : Nat) (hn : 1 ≤ n) (h : a + n ≤ b) :
    a / n + 1 ≤ b / n := by
  have h1 : (a + n) / n = a / n + 1 := Nat.add_div_right a (by omega)
  have h2 : (a + n) / n ≤ b / n := Nat.div_le_div_right h
  omega

theorem ieee_scaled_lt (mb p q : Nat) (h : p < q) : ieee_scaled mb p < ieee_scaled mb q := by
  have hE : 0 < 2 ^ mb := Nat.pow_pos (by norm_num)
  have hp := Nat.div_add_mod p (2 ^ mb)
  have hq := Nat.div_add_mod q (2 ^ mb)
  have hmp : p % 2 ^ mb < 2 ^ mb := Nat.mod_lt _ hE
  have hmq : q % 2 ^ mb < 2 ^ mb := Nat.mod_lt _ hE
  have hle : p / 2 ^ mb ≤ q / 2 ^ mb := Nat.div_le_div_right h.le
  unfold ieee_scaled
  generalize hep : p / 2 ^ mb = ep at *
  generalize heq : q / 2 ^ mb = eq at *
  generalize hmp' : p % 2 ^ mb = mp at *
  generalize hmq' : q % 2 ^ mb = mq at *
  generalize hE' : 2 ^ mb = E at *
  rcases Nat.eq_or_lt_of_le hle with hee | hlt
  · -- same exponent field: the fraction grows
    subst hee
    have hm : mp < mq := by
      have : E * ep + mp < E * ep + mq := by omega
      omega
    by_cases h0 : ep = 0
    · simp only [h0, if_true]; omega
    · simp only [h0, if_false]
      exact Nat.mul_lt_mul_of_pos_right (by omega) (Nat.pow_pos (by norm_num))
  · -- smaller exponent field
    have hq0 : eq ≠ 0 := by omega
    simp only [hq0, if_false]
    have hlow : E * 2 ^ eq ≤ (E + mq) * 2 ^ eq := Nat.mul_le_mul_right _ (by omega)
    by_cases h0 : ep = 0
    · simp only [h0, if_true]
      have h2 : 2 ^ 1 ≤ 2 ^ eq := Nat.pow_le_pow_right (by norm_num) (by omega)
      have h3 : E * 2 ^ 1 ≤ E * 2 ^ eq := Nat.mul_le_mul_left _ h2
      omega
    · simp only [h0, if_false]
      have h1 : (E + mp) * 2 ^ ep < (E + E) * 2 ^ ep :=
        Nat.mul_lt_mul_of_pos_right (by omega) (Nat.pow_pos (by norm_num))
      have h2 : 2 ^ (ep + 1) ≤ 2 ^ eq := Nat.pow_le_pow_right (by norm_num) (by omega)
      have h3 : E * 2 ^ (ep + 1) ≤ E * 2 ^ eq := Nat.mul_le_mul_left _ h2
      have h4 : (E + E) * 2 ^ ep = E * 2 ^ (ep + 1) := by ring
      omega

theorem ieee_value_of_finite (eb mb p : Nat) (hp : p < (2 ^ eb - 1) * 2 ^ mb) :
    ieee_value eb mb p =
      some (((ieee_scaled mb p : Nat) : ℚ) / ((2 ^ (2 ^ (eb - 1) - 1 + mb) : Nat) : ℚ)) := by
  have hE : 0 < 2 ^ mb := Nat.pow_pos (by norm_num)
  have hB : 0 < 2 ^ eb := Nat.pow_pos (by norm_num)
  have he : p / 2 ^ mb < 2 ^ eb - 1 := (Nat.div_lt_iff_lt_mul hE).mpr hp
  have hmod : p / 2 ^ mb % 2 ^ eb = p / 2 ^ mb := Nat.mod_eq_of_lt (by omega)
  have hlt : p < 2 ^ (eb + mb) := by
    rw [pow_add]
    exact lt_of_lt_of_le hp (Nat.mul_le_mul_right _ (by omega))
  have hs : p / 2 ^ (eb + mb) = 0 := Nat.div_eq_of_lt hlt
  have hne : p / 2 ^ mb ≠ 2 ^ eb - 1 := by omega
  unfold ieee_value ieee_scaled
  simp only [hs, hmod, hne, if_false, Nat.zero_mod, zero_ne_one]
  by_cases h0 : p / 2 ^ mb = 0
  · simp only [h0, if_true]
  · simp only [h0, if_false]

theorem ieee_value_lt (eb mb p q : Nat) (hpq : p < q) (hq : q < (2 ^ eb - 1) * 2 ^ mb) :
    result_lt (ieee_value eb mb p) (ieee_value eb mb q) := by
  rw [ieee_value_of_finite eb mb p (by omega), ieee_value_of_finite eb mb q hq]
  simp only [result_lt]
  have hD : (0 : ℚ) < ((2 ^ (2 ^ (eb - 1) - 1 + mb) : Nat) : ℚ) := by positivity
  have hS : ((ieee_scaled mb p : Nat) : ℚ) < ((ieee_scaled mb q : Nat) : ℚ) := by
    exact_mod_cast ieee_scaled_lt mb p q hpq
  exact div_lt_div_of_pos_right hS hD

theorem ieee_value_le (eb mb p q : Nat) (hpq : p ≤ q) (hq : q < (2 ^ eb - 1) * 2 ^ mb) :
    result_le (ieee_value eb mb p) (ieee_value eb mb q) := by
  rcases Nat.eq_or_lt_of_le hpq with h | h
  · subst h
    rw [ieee_value_of_finite eb mb p hq]
    simp only [result_le, le_refl]
  · have := ieee_value_lt eb mb p q h hq
    rw [ieee_value_of_finite eb mb p (by omega), ieee_value_of_finite eb mb q hq] at this ⊢
    simp only [result_lt] at this
    simp only [result_le]
    exact this.le
theorem float_value_ge_one (c : Nat) (hc : c < 2 ^ 32)
    (h : result_le (some 1) (float_value c)) : 0x3f800000 ≤ c ∧ c ≤ 0x7f7fffff := by
  by_cases h1 : c < 0x3f800000
  · exfalso
    have hlt := ieee_value_lt 8 23 c 0x3f800000 h1 (by norm_num)
    have hone : ieee_value 8 23 0x3f800000 = some 1 := by norm_num [ieee_value]
    unfold float_value at h
    rw [hone, ieee_value_of_finite 8 23 c (by norm_num; omega)] at hlt
    rw [ieee_value_of_finite 8 23 c (by norm_num; omega)] at h
    simp only [result_lt] at hlt
    simp only [result_le] at h
    linarith
  · by_cases h2 : c ≤ 0x7f7fffff
    · omega
    · exfalso
      by_cases h3 : c < 2 ^ 31
      · have he : c / 2 ^ 23 % 2 ^ 8 = 2 ^ 8 - 1 := by omega
        unfold float_value ieee_value at h
        simp only [he, if_true, result_le] at h
      · have hs : c / 2 ^ (8 + 23) % 2 = 1 := by omega
        unfold float_value ieee_value at h
        simp only [hs, if_true] at h
        by_cases he : c / 2 ^ 23 % 2 ^ 8 = 2 ^ 8 - 1
        · simp only [he, if_true, result_le] at h
        · simp only [he, if_false, result_le] at h
          have hnn : (0 : ℚ) ≤
              (if c / 2 ^ 23 % 2 ^ 8 = 0 then ((2 * (c % 2 ^ 23) : Nat) : ℚ)
                else (((2 ^ 23 + c % 2 ^ 23) * 2 ^ (c / 2 ^ 23 % 2 ^ 8) : Nat) : ℚ))
              / ((2 ^ (2 ^ (8 - 1) - 1 + 23) : Nat) : ℚ) := by
            apply div_nonneg
            · split_ifs <;> exact Nat.cast_nonneg _
            · exact Nat.cast_nonneg _
          linarith

/-! ## Claims -/

/-- C1: for every exponent `n` and every `x` of a monoid (in particular of any
commutative ring) `ct_pow<n>(x)` is `x ^ n`, and it satisfies the reference
definition of the integer power: `ct_pow<0>(x) = 1` and
`ct_pow<n + 1>(x) = x * ct_pow<n>(x)`. -/
theorem ct_pow_reference {T : Type} [Monoid T] (n : Nat) (x : T) :
    ct_pow n x = x ^ n ∧ ct_pow 0 x = 1 ∧ ct_pow (n + 1) x = x * ct_pow n x := by
  refine ⟨ct_pow_pow n x, ct_pow_zero x, ?_⟩
  rw [ct_pow_pow, ct_pow_pow, pow_succ']

/-- C2 (as stated, fails): at degree `n = 65537` the coefficient `n * (n - 1)` wraps in
`uint32_t` (to `65536`), and `halley_step<65537>(1, 0)` is not the Halley iterate of
`f(t) = t^65537 - 0` at `x0 = 1`. -/
theorem halley_step_65537_not_halley :
    ¬ (halley_step 65537 (1 : ℝ) 0 =
        1 - (2 * root_fn 65537 0 1 * deriv (root_fn 65537 0) 1) /
          (2 * deriv (root_fn 65537 0) 1 ^ 2
            - root_fn 65537 0 1 * deriv (deriv (root_fn 65537 0)) 1)) := by
  have e1 : sub_u32 65537 1 = 65536 := by norm_num [sub_u32]
  have e2 : sub_u32 65537 2 = 65535 := by norm_num [sub_u32]
  have e3 : mul_u32 65537 65536 = 65536 := by norm_num [mul_u32]
  unfold root_fn
  rw [deriv_deriv_pow_sub_const, deriv_pow_sub_const]
  simp only [halley_step, halley_numer, halley_denom, halley_fx, halley_fpx, halley_fppx,
    e1, e2, e3, ct_pow_pow, one_pow]
  norm_num

/-- C2 (amended): for every degree `2 ≤ n ≤ 65536` (the degrees whose coefficient
`n * (n - 1)` does not wrap in `uint32_t`) and all real `x0`, `value`, the locals
`fpx` and `fppx` are the first and second derivative of `f(t) = t^n - value` at `x0`,
and `halley_step<n>(x0, value)` is one Halley iteration
`x0 - 2 f f' / (2 f'^2 - f f'')` on `f`. -/
theorem halley_step_is_halley (n : Nat) (h2 : 2 ≤ n) (h : n ≤ 65536) (x0 value : ℝ) :
    halley_fpx n x0 = deriv (root_fn n value) x0 ∧
    halley_fppx n x0 = deriv (deriv (root_fn n value)) x0 ∧
    halley_step n x0 value =
      x0 - (2 * root_fn n value x0 * deriv (root_fn n value) x0) /
        (2 * deriv (root_fn n value) x0 ^ 2
          - root_fn n value x0 * deriv (deriv (root_fn n value)) x0) := by
  have hlt : n < 2 ^ 32 := by omega
  have hd1 : deriv (root_fn n value) x0 = (n : ℝ) * x0 ^ (n - 1) := by
    unfold root_fn; rw [deriv_pow_sub_const]
  have hd2 : deriv (deriv (root_fn n value)) x0 = (n : ℝ) * ((n - 1 : Nat) : ℝ) * x0 ^ (n - 2) := by
    unfold root_fn; rw [deriv_deriv_pow_sub_const]
  have hf1 := halley_fpx_eq n (by omega) hlt x0
  have hf2 := halley_fppx_eq n h2 h x0
  refine ⟨by rw [hf1, hd1], by rw [hf2, hd2], ?_⟩
  rw [halley_step, halley_numer, halley_denom, halley_fx, hf1, hf2, hd1, hd2, ct_pow_pow]
  simp only [root_fn]
  ring

/-- C2 (witness): the amended statement at `n = 3`, `x0 = 2`, `value = 5`. -/
theorem halley_step_is_halley_witness :
    (2 ≤ 3 ∧ 3 ≤ 65536) ∧
    halley_step 3 (2 : ℝ) 5 =
      2 - (2 * root_fn 3 5 2 * deriv (root_fn 3 5) 2) /
        (2 * deriv (root_fn 3 5) 2 ^ 2 - root_fn 3 5 2 * deriv (deriv (root_fn 3 5)) 2) :=
  ⟨by decide, (halley_step_is_halley 3 (by decide) (by decide) 2 5).2.2⟩

/-- C3 (the code at a failing input): at the range boundary `x = 1e6`
(`0x49742400` as a `float`, `0x412e848000000000` as a `double`) the result of the
entry point of every degree `n` in `2 .. 10` misses the accuracy requirement
`|r ^ n - x| ≤ tol * x`, in both widths. -/
theorem approx_root_inaccurate_at_1e6 (n : Fin 9) :
    float_value 0x49742400 = some 1000000 ∧
    double_value 0x412e848000000000 = some 1000000 ∧
    ¬ root_accuracy (n + 2) (approx_root_float (n + 2) 0x49742400)
        (float_value 0x49742400) (1 / 1000) ∧
    ¬ root_accuracy (n + 2) (approx_root_double (n + 2) 0x412e848000000000)
        (double_value 0x412e848000000000) (1 / 10 ^ 10) := by
  refine ⟨by norm_num [float_value, ieee_value], by norm_num [double_value, ieee_value], ?_⟩
  fin_cases n <;>
  · constructor <;>
    · simp only [approx_root_float, approx_root_double,
        approx_sqrt_float, approx_cbrt_float, approx_forth_root_float, approx_fifth_root_float,
        approx_sixth_root_float, approx_seventh_root_float, approx_eighth_root_float,
        approx_ninth_root_float, approx_tenth_root_float,
        approx_sqrt_double, approx_cbrt_double, approx_forth_root_double,
        approx_fifth_root_double, approx_sixth_root_double, approx_seventh_root_double,
        approx_eighth_root_double, approx_ninth_root_double, approx_tenth_root_double,
        float_approx_with_halley_step, double_approx_with_halley_step,
        float_guess_bits, double_guess_bits, halley_step_checked, float_magic, double_magic,
        halley_step, halley_numer, halley_denom, halley_fx, halley_fpx, halley_fppx, ct_pow_pow]
      norm_num [sub_u32, sub_u64, mul_u32, float_value, double_value, ieee_value,
        root_accuracy, lt_abs, abs_le]

/-- C4 (the code at the failing inputs): none of `approx_sqrt(4.0)`, `approx_sqrt(9.0)`,
`approx_cbrt(27.0)`, `approx_cbrt(8.0)` is within the tolerance band of `2`, `3`, `3`,
`2`, in either width; `approx_sqrt(4.0f)` starts from the bit pattern
`0x1fbb67ad - 0x20400000 = 0xff7b67ad` modulo `2 ^ 32`, a negative number. -/
theorem approx_sqrt_cbrt_examples_fail :
    float_guess_bits 0x1fbb67ad 2 0x40800000 = 0xff7b67ad ∧
    float_value 0xff7b67ad = some (-(16476077 * 2 ^ 104)) ∧
    ¬ within_tolerance (approx_sqrt_float 0x40800000) 2 (1 / 1000) ∧
    ¬ within_tolerance (approx_sqrt_float 0x41100000) 3 (1 / 1000) ∧
    ¬ within_tolerance (approx_cbrt_float 0x41d80000) 3 (1 / 1000) ∧
    ¬ within_tolerance (approx_cbrt_float 0x41000000) 2 (1 / 1000) ∧
    ¬ within_tolerance (approx_sqrt_double 0x4010000000000000) 2 (1 / 10 ^ 10) ∧
    ¬ within_tolerance (approx_sqrt_double 0x4022000000000000) 3 (1 / 10 ^ 10) ∧
    ¬ within_tolerance (approx_cbrt_double 0x403b000000000000) 3 (1 / 10 ^ 10) ∧
    ¬ within_tolerance (approx_cbrt_double 0x4020000000000000) 2 (1 / 10 ^ 10) := by
  refine ⟨by decide, by norm_num [float_value, ieee_value], ?_, ?_, ?_, ?_, ?_, ?_, ?_, ?_⟩ <;>
    · simp only [approx_root_float, approx_root_double,
        approx_sqrt_float, approx_cbrt_float, approx_forth_root_float, approx_fifth_root_float,
        approx_sixth_root_float, approx_seventh_root_float, approx_eighth_root_float,
        approx_ninth_root_float, approx_tenth_root_float,
        approx_sqrt_double, approx_cbrt_double, approx_forth_root_double,
        approx_fifth_root_double, approx_sixth_root_double, approx_seventh_root_double,
        approx_eighth_root_double, approx_ninth_root_double, approx_tenth_root_double,
        float_approx_with_halley_step, double_approx_with_halley_step,
        float_guess_bits, double_guess_bits, halley_step_checked, float_magic, double_magic,
        halley_step, halley_numer, halley_denom, halley_fx, halley_fpx, halley_fppx, ct_pow_pow]
      norm_num [sub_u32, sub_u64, mul_u32, float_value, double_value, ieee_value,
        within_tolerance, lt_abs, abs_le]

/-- C5 (the code at the failing input): for `x = 1` (`0x3f800000`,
`0x3ff0000000000000`) the result of the entry point of every degree `n` in `2 .. 10`
is not within the tolerance of `1`, in both widths; for `approx_sqrt` the initial
guess is a NaN bit pattern, so the result is not finite. -/
theorem approx_root_of_one_fails (n : Fin 9) :
    float_value 0x3f800000 = some 1 ∧
    double_value 0x3ff0000000000000 = some 1 ∧
    approx_sqrt_float 0x3f800000 = none ∧
    approx_sqrt_double 0x3ff0000000000000 = none ∧
    ¬ within_tolerance (approx_root_float (n + 2) 0x3f800000) 1 (1 / 1000) ∧
    ¬ within_tolerance (approx_root_double (n + 2) 0x3ff0000000000000) 1 (1 / 10 ^ 10) := by
  refine ⟨by norm_num [float_value, ieee_value], by norm_num [double_value, ieee_value],
    ?_, ?_, ?_⟩
  · simp only [approx_root_float, approx_root_double,
      approx_sqrt_float, approx_cbrt_float, approx_forth_root_float, approx_fifth_root_float,
      approx_sixth_root_float, approx_seventh_root_float, approx_eighth_root_float,
      approx_ninth_root_float, approx_tenth_root_float,
      approx_sqrt_double, approx_cbrt_double, approx_forth_root_double,
      approx_fifth_root_double, approx_sixth_root_double, approx_seventh_root_double,
      approx_eighth_root_double, approx_ninth_root_double, approx_tenth_root_double,
      float_approx_with_halley_step, double_approx_with_halley_step,
      float_guess_bits, double_guess_bits, halley_step_checked, float_magic, double_magic,
      halley_step, halley_numer, halley_denom, halley_fx, halley_fpx, halley_fppx, ct_pow_pow]
    norm_num [sub_u32, float_value, ieee_value]
  · simp only [approx_root_float, approx_root_double,
      approx_sqrt_float, approx_cbrt_float, approx_forth_root_float, approx_fifth_root_float,
      approx_sixth_root_float, approx_seventh_root_float, approx_eighth_root_float,
      approx_ninth_root_float, approx_tenth_root_float,
      approx_sqrt_double, approx_cbrt_double, approx_forth_root_double,
      approx_fifth_root_double, approx_sixth_root_double, approx_seventh_root_double,
      approx_eighth_root_double, approx_ninth_root_double, approx_tenth_root_double,
      float_approx_with_halley_step, double_approx_with_halley_step,
      float_guess_bits, double_guess_bits, halley_step_checked, float_magic, double_magic,
      halley_step, halley_numer, halley_denom, halley_fx, halley_fpx, halley_fppx, ct_pow_pow]
    norm_num [sub_u64, double_value, ieee_value]
  fin_cases n <;>
  · constructor <;>
    · simp only [approx_root_float, approx_root_double,
        approx_sqrt_float, approx_cbrt_float, approx_forth_root_float, approx_fifth_root_float,
        approx_sixth_root_float, approx_seventh_root_float, approx_eighth_root_float,
        approx_ninth_root_float, approx_tenth_root_float,
        approx_sqrt_double, approx_cbrt_double, approx_forth_root_double,
        approx_fifth_root_double, approx_sixth_root_double, approx_seventh_root_double,
        approx_eighth_root_double, approx_ninth_root_double, approx_tenth_root_double,
        float_approx_with_halley_step, double_approx_with_halley_step,
        float_guess_bits, double_guess_bits, halley_step_checked, float_magic, double_magic,
        halley_step, halley_numer, halley_denom, halley_fx, halley_fpx, halley_fppx, ct_pow_pow]
      norm_num [sub_u32, sub_u64, mul_u32, float_value, double_value, ieee_value,
        within_tolerance, lt_abs, abs_le]

/-- C6 (the code at the failing input): for `x = 1` the bit-trick initial guess
`bitcast(M - bits(x) / n)` of every degree `n` in `2 .. 10` misses the coarse
requirement `x0 > 0 ∧ 0.9 ^ n * x ≤ x0 ^ n ≤ 1.1 ^ n * x`, in both widths. -/
theorem initial_guess_of_one_fails (n : Fin 9) :
    ¬ guess_accuracy (n + 2)
        (float_value (float_guess_bits (float_magic (n + 2)) (n + 2) 0x3f800000))
        (float_value 0x3f800000) ∧
    ¬ guess_accuracy (n + 2)
        (double_value (double_guess_bits (double_magic (n + 2)) (n + 2) 0x3ff0000000000000))
        (double_value 0x3ff0000000000000) := by
  fin_cases n <;>
  · constructor <;>
    · simp only [approx_root_float, approx_root_double,
        approx_sqrt_float, approx_cbrt_float, approx_forth_root_float, approx_fifth_root_float,
        approx_sixth_root_float, approx_seventh_root_float, approx_eighth_root_float,
        approx_ninth_root_float, approx_tenth_root_float,
        approx_sqrt_double, approx_cbrt_double, approx_forth_root_double,
        approx_fifth_root_double, approx_sixth_root_double, approx_seventh_root_double,
        approx_eighth_root_double, approx_ninth_root_double, approx_tenth_root_double,
        float_approx_with_halley_step, double_approx_with_halley_step,
        float_guess_bits, double_guess_bits, halley_step_checked, float_magic, double_magic,
        halley_step, halley_numer, halley_denom, halley_fx, halley_fpx, halley_fppx, ct_pow_pow]
      norm_num [sub_u32, sub_u64, mul_u32, float_value, double_value, ieee_value,
        guess_accuracy]

/-- C7 (the code at the failing inputs): for every degree `n` in `2 .. 10` and both
widths, the inputs `0.25 < 4` have results in the opposite order:
`approx_root_n(4) < approx_root_n(0.25)`. -/
theorem approx_root_not_monotone (n : Fin 9) :
    float_value 0x3e800000 = some (1 / 4) ∧ float_value 0x40800000 = some 4 ∧
    double_value 0x3fd0000000000000 = some (1 / 4) ∧
    double_value 0x4010000000000000 = some 4 ∧
    result_lt (approx_root_float (n + 2) 0x40800000)
      (approx_root_float (n + 2) 0x3e800000) ∧
    result_lt (approx_root_double (n + 2) 0x4010000000000000)
      (approx_root_double (n + 2) 0x3fd0000000000000) := by
  refine ⟨by norm_num [float_value, ieee_value], by norm_num [float_value, ieee_value],
    by norm_num [double_value, ieee_value], by norm_num [double_value, ieee_value], ?_⟩
  fin_cases n <;>
  · constructor <;>
    · simp only [approx_root_float, approx_root_double,
        approx_sqrt_float, approx_cbrt_float, approx_forth_root_float, approx_fifth_root_float,
        approx_sixth_root_float, approx_seventh_root_float, approx_eighth_root_float,
        approx_ninth_root_float, approx_tenth_root_float,
        approx_sqrt_double, approx_cbrt_double, approx_forth_root_double,
        approx_fifth_root_double, approx_sixth_root_double, approx_seventh_root_double,
        approx_eighth_root_double, approx_ninth_root_double, approx_tenth_root_double,
        float_approx_with_halley_step, double_approx_with_halley_step,
        float_guess_bits, double_guess_bits, halley_step_checked, float_magic, double_magic,
        halley_step, halley_numer, halley_denom, halley_fx, halley_fpx, halley_fppx, ct_pow_pow]
      norm_num [sub_u32, sub_u64, mul_u32, float_value, double_value, ieee_value,
        result_lt]

/-- C8: for every supported degree `n` in `2 .. 10` the `uint32_t` computations of
`halley_step<n>` do not wrap: the exponents `n - 1` and `n - 2` are the mathematical
values, non-negative, the smallest being `0` at `n = 2`, and the coefficient
`n * (n - 1)` is the mathematical product, at most `90`; so `fpx` and `fppx` are
`n * x0^(n-1)` and `n * (n-1) * x0^(n-2)`. -/
theorem halley_step_u32_no_wrap (n : Nat) (h2 : 2 ≤ n) (h10 : n ≤ 10) :
    ((sub_u32 n 1 : Nat) : Int) = (n : Int) - 1 ∧
    ((sub_u32 n 2 : Nat) : Int) = (n : Int) - 2 ∧
    (0 : Int) ≤ (n : Int) - 2 ∧
    sub_u32 2 2 = 0 ∧ sub_u32 2 2 ≤ sub_u32 n 2 ∧
    ((mul_u32 n (sub_u32 n 1) : Nat) : Int) = (n : Int) * ((n : Int) - 1) ∧
    mul_u32 n (sub_u32 n 1) ≤ 90 ∧
    (∀ x0 : ℚ, halley_fpx n x0 = (n : ℚ) * x0 ^ (n - 1) ∧
      halley_fppx n x0 = (n : ℚ) * ((n : ℚ) - 1) * x0 ^ (n - 2)) := by
  have hlt : n < 2 ^ 32 := by omega
  have e1 := sub_u32_one n (by omega) hlt
  have e2 := sub_u32_two n h2 hlt
  have e3 := mul_u32_pred n (by omega)
  have e0 : sub_u32 2 2 = 0 := by decide
  have hle : n * (n - 1) ≤ 10 * 9 := Nat.mul_le_mul h10 (by omega)
  have hc : ((n - 1 : Nat) : ℚ) = (n : ℚ) - 1 := by
    rw [Nat.cast_sub (by omega)]; simp
  refine ⟨by rw [e1]; omega, by rw [e2]; omega, by omega, e0, by rw [e0]; omega, ?_, ?_, ?_⟩
  · have hz : ((n - 1 : Nat) : Int) = (n : Int) - 1 := by omega
    rw [e1, e3, Nat.cast_mul, hz]
  · rw [e1, e3]; omega
  · intro x0
    refine ⟨halley_fpx_eq n (by omega) hlt x0, ?_⟩
    rw [halley_fppx_eq n h2 (by omega) x0, hc]

/-- C8 (witness): the statement at the smallest degree `n = 2`, where the exponent
`n - 2` is `0`. -/
theorem halley_step_u32_no_wrap_witness :
    (2 ≤ 2 ∧ 2 ≤ 10) ∧ ((sub_u32 2 2 : Nat) : Int) = ((2 : Nat) : Int) - 2 :=
  ⟨by decide, (halley_step_u32_no_wrap 2 (by decide) (by decide)).2.1⟩

/-- C9 (as stated, fails): at degree `n = 65537`, `x0 = 1`, `value = 2` the divisor is
not `n * x0^(n-2) * ((n+1) * x0^n + (n-1) * value)`, because the coefficient
`n * (n - 1)` of `fppx` has wrapped in `uint32_t`. -/
theorem halley_denom_65537_not_closed :
    (0 : ℝ) < 1 ∧ (0 : ℝ) < 2 ∧
    ¬ (halley_denom 65537 (1 : ℝ) 2 =
        (65537 : ℝ) * 1 ^ (65537 - 2) * ((65537 + 1) * 1 ^ 65537 + (65537 - 1) * 2)) := by
  have e1 : sub_u32 65537 1 = 65536 := by norm_num [sub_u32]
  have e2 : sub_u32 65537 2 = 65535 := by norm_num [sub_u32]
  have e3 : mul_u32 65537 65536 = 65536 := by norm_num [mul_u32]
  refine ⟨by norm_num, by norm_num, ?_⟩
  simp only [halley_denom, halley_fx, halley_fpx, halley_fppx, e1, e2, e3, ct_pow_pow, one_pow]
  norm_num

/-- C9 (amended): for every degree `2 ≤ n < 2^32` and all real `x0 > 0`, `value > 0`,
`fpx` is non-zero and the divisor `2 * fpx^2 - fx * fppx` is strictly positive; for
`n ≤ 65536` (no wrap-around of `n * (n - 1)`) the divisor equals
`n * x0^(n-2) * ((n+1) * x0^n + (n-1) * value)`. -/
theorem halley_denom_pos (n : Nat) (h2 : 2 ≤ n) (h : n < 2 ^ 32) (x0 value : ℝ)
    (hx : 0 < x0) (hv : 0 < value) :
    halley_fpx n x0 ≠ 0 ∧ 0 < halley_denom n x0 value ∧
    (n ≤ 65536 → halley_denom n x0 value =
      (n : ℝ) * x0 ^ (n - 2) * (((n : ℝ) + 1) * x0 ^ n + ((n : ℝ) - 1) * value)) := by
  refine ⟨?_, ?_, fun h' => halley_denom_closed n h2 h' x0 value⟩
  · rw [halley_fpx_eq n (by omega) h]
    have hn : (0 : ℝ) < (n : ℝ) := by
      have : 0 < n := by omega
      exact_mod_cast this
    exact (mul_pos hn (pow_pos hx _)).ne'
  · obtain ⟨m, rfl⟩ := Nat.exists_eq_add_of_le' h2
    exact halley_denom_pos_aux m h x0 value hx hv

/-- C9 (witness): the amended statement at `n = 2`, `x0 = 1`, `value = 3`. -/
theorem halley_denom_pos_witness :
    (2 ≤ 2 ∧ 2 < 2 ^ 32 ∧ (0 : ℝ) < 1 ∧ (0 : ℝ) < 3) ∧ 0 < halley_denom 2 (1 : ℝ) 3 :=
  ⟨⟨by norm_num, by norm_num, by norm_num, by norm_num⟩,
    (halley_denom_pos 2 (by norm_num) (by norm_num) 1 3 (by norm_num) (by norm_num)).2.1⟩

/-- C10 (as stated, fails): at degree `n = 65537`, `x0 = 1`, `value = 100` the guess is
below the root (`x0^n < value`) and the refined estimate overshoots it:
`halley_step<65537>(1, 100) ^ 65537` is not below `100`. -/
theorem halley_step_65537_overshoots :
    (0 : ℝ) < 1 ∧ (0 : ℝ) < 100 ∧ (1 : ℝ) ^ 65537 < 100 ∧
    ¬ (halley_step 65537 (1 : ℝ) 100 ^ 65537 < 100) := by
  have e1 : sub_u32 65537 1 = 65536 := by norm_num [sub_u32]
  have e2 : sub_u32 65537 2 = 65535 := by norm_num [sub_u32]
  have e3 : mul_u32 65537 65536 = 65536 := by norm_num [mul_u32]
  have hx1 : halley_step 65537 (1 : ℝ) 100 = 1 + 6488163 / 4298342401 := by
    simp only [halley_step, halley_numer, halley_denom, halley_fx, halley_fpx, halley_fppx,
      e1, e2, e3, ct_pow_pow, one_pow]
    norm_num
  refine ⟨by norm_num, by norm_num, by norm_num, ?_⟩
  rw [hx1, not_lt]
  have hb : (1 : ℝ) + (1024 : ℕ) * ((1 + 6488163 / 4298342401 : ℝ) ^ 64 - 1)
      ≤ (1 + ((1 + 6488163 / 4298342401 : ℝ) ^ 64 - 1)) ^ 1024 :=
    one_add_mul_le_pow (by norm_num) 1024
  have h64 : (100 : ℝ) ≤ 1 + (1024 : ℕ) * ((1 + 6488163 / 4298342401 : ℝ) ^ 64 - 1) := by
    norm_num
  have hsplit : (1 + 6488163 / 4298342401 : ℝ) ^ 65537
      = (1 + ((1 + 6488163 / 4298342401 : ℝ) ^ 64 - 1)) ^ 1024
        * (1 + 6488163 / 4298342401 : ℝ) := by
    rw [add_sub_cancel, ← pow_mul, ← pow_succ]
  have key : ∀ P : ℝ, 100 ≤ P → 100 ≤ P * (1 + 6488163 / 4298342401) := by
    intro P hP
    nlinarith
  rw [hsplit]
  exact key _ (le_trans h64 hb)

/-- C10 (amended): for every degree `2 ≤ n ≤ 65536` (no wrap-around of `n * (n - 1)`)
and all real `x0 > 0`, `value > 0` with `x0^n ≠ value`, the refined estimate
`x1 = halley_step<n>(x0, value)` is positive and lies strictly between the root and
`x0`: if `x0^n > value` then `value < x1^n < x0^n`, and if `x0^n < value` then
`x0^n < x1^n < value`. -/
theorem halley_step_between (n : Nat) (h2 : 2 ≤ n) (h : n ≤ 65536) (x0 value : ℝ)
    (hx : 0 < x0) (hv : 0 < value) (hne : x0 ^ n ≠ value) :
    0 < halley_step n x0 value ∧
    (value < x0 ^ n → value < halley_step n x0 value ^ n ∧ halley_step n x0 value ^ n < x0 ^ n) ∧
    (x0 ^ n < value → x0 ^ n < halley_step n x0 value ^ n ∧ halley_step n x0 value ^ n < value) := by
  have hn0 : n ≠ 0 := by omega
  have hn1 : (1 : ℝ) < (n : ℝ) := by
    have : 1 < n := by omega
    exact_mod_cast this
  have hu : 0 < x0 ^ n := pow_pos hx n
  have hB : 0 < ((n : ℝ) + 1) * x0 ^ n + ((n : ℝ) - 1) * value := by
    have : 0 < ((n : ℝ) - 1) * value := mul_pos (by linarith) hv
    have : 0 < ((n : ℝ) + 1) * x0 ^ n := mul_pos (by linarith) hu
    linarith
  have hA : 0 < ((n : ℝ) - 1) * x0 ^ n + ((n : ℝ) + 1) * value := by
    have : 0 < ((n : ℝ) - 1) * x0 ^ n := mul_pos (by linarith) hu
    have : 0 < ((n : ℝ) + 1) * value := mul_pos (by linarith) hv
    linarith
  have hcl := halley_step_closed n h2 h x0 value hx.ne' hB.ne'
  have hpos : 0 < halley_step n x0 value := by
    rw [hcl]; exact div_pos (mul_pos hx hA) hB
  -- the true root
  have ht : 0 < value ^ ((n : ℝ)⁻¹) := Real.rpow_pos_of_pos hv _
  have htn : (value ^ ((n : ℝ)⁻¹)) ^ n = value := Real.rpow_inv_natCast_pow hv.le hn0
  obtain ⟨m, rfl⟩ := Nat.exists_eq_add_of_le' h2
  have c1 : ((m + 2 : ℕ) : ℝ) - 1 = (m : ℝ) + 1 := by push_cast; ring
  have c2 : ((m + 2 : ℕ) : ℝ) + 1 = (m : ℝ) + 3 := by push_cast; ring
  have hbt := closed_form_between m x0 (value ^ (((m + 2 : ℕ) : ℝ)⁻¹)) hx ht
  rw [htn, ← c1, ← c2, ← hcl] at hbt
  refine ⟨hpos, ?_, ?_⟩
  · intro hlt
    have hroot : value ^ (((m + 2 : ℕ) : ℝ)⁻¹) < x0 := by
      apply lt_of_pow_lt_pow_left₀ (m + 2) hx.le
      rw [htn]; exact hlt
    obtain ⟨ha, hb⟩ := hbt.1 hroot
    constructor
    · have := pow_lt_pow_left₀ ha ht.le hn0
      rwa [htn] at this
    · exact pow_lt_pow_left₀ hb hpos.le hn0
  · intro hlt
    have hroot : x0 < value ^ (((m + 2 : ℕ) : ℝ)⁻¹) := by
      apply lt_of_pow_lt_pow_left₀ (m + 2) ht.le
      rw [htn]; exact hlt
    obtain ⟨ha, hb⟩ := hbt.2 hroot
    constructor
    · exact pow_lt_pow_left₀ ha hx.le hn0
    · have := pow_lt_pow_left₀ hb hpos.le hn0
      rwa [htn] at this

/-- C10 (witness): the amended statement at `n = 2`, `x0 = 1`, `value = 4`: the
refined estimate `7 / 5` of the square root of `4` is positive. -/
theorem halley_step_between_witness :
    (2 ≤ 2 ∧ 2 ≤ 65536 ∧ (0 : ℝ) < 1 ∧ (0 : ℝ) < 4 ∧ (1 : ℝ) ^ 2 ≠ 4) ∧
    0 < halley_step 2 (1 : ℝ) 4 :=
  ⟨⟨by norm_num, by norm_num, by norm_num, by norm_num, by norm_num⟩,
    (halley_step_between 2 (by norm_num) (by norm_num) 1 4 (by norm_num) (by norm_num)
      (by norm_num)).1⟩

/-- C11 (as stated, fails): at degree `n = 65537`, `x0 = 1`, `value = 2` (where
`(n+1) * x0^n + (n-1) * value ≠ 0`) the result of `halley_step` is not the closed form
`x0 * ((n-1) * x0^n + (n+1) * value) / ((n+1) * x0^n + (n-1) * value)`: the coefficient
`n * (n - 1)` of `fppx` has wrapped in `uint32_t`. -/
theorem halley_step_65537_not_closed :
    (1 : ℝ) ≠ 0 ∧ ((65537 : ℝ) + 1) * 1 ^ 65537 + ((65537 : ℝ) - 1) * 2 ≠ 0 ∧
    ¬ (halley_step 65537 (1 : ℝ) 2 =
        1 * (((65537 : ℝ) - 1) * 1 ^ 65537 + ((65537 : ℝ) + 1) * 2) /
          (((65537 : ℝ) + 1) * 1 ^ 65537 + ((65537 : ℝ) - 1) * 2)) := by
  have e1 : sub_u32 65537 1 = 65536 := by norm_num [sub_u32]
  have e2 : sub_u32 65537 2 = 65535 := by norm_num [sub_u32]
  have e3 : mul_u32 65537 65536 = 65536 := by norm_num [mul_u32]
  refine ⟨by norm_num, by norm_num, ?_⟩
  simp only [halley_step, halley_numer, halley_denom, halley_fx, halley_fpx, halley_fppx,
    e1, e2, e3, ct_pow_pow, one_pow]
  norm_num

/-- C11 (amended): for every degree `2 ≤ n ≤ 65536` (no wrap-around of `n * (n - 1)`)
and all real `x0 ≠ 0` and `value` with `(n+1) * x0^n + (n-1) * value ≠ 0`,
`halley_step<n>(x0, value)` equals the closed form
`x0 * ((n-1) * x0^n + (n+1) * value) / ((n+1) * x0^n + (n-1) * value)`. -/
theorem halley_step_closed_form (n : Nat) (h2 : 2 ≤ n) (h : n ≤ 65536) (x0 value : ℝ)
    (hx : x0 ≠ 0) (hd : ((n : ℝ) + 1) * x0 ^ n + ((n : ℝ) - 1) * value ≠ 0) :
    halley_step n x0 value =
      x0 * (((n : ℝ) - 1) * x0 ^ n + ((n : ℝ) + 1) * value) /
        (((n : ℝ) + 1) * x0 ^ n + ((n : ℝ) - 1) * value) :=
  halley_step_closed n h2 h x0 value hx hd

/-- C11 (witness): the amended statement at `n = 3`, `x0 = 2`, `value = 5`. -/
theorem halley_step_closed_form_witness :
    (2 ≤ 3 ∧ 3 ≤ 65536 ∧ (2 : ℝ) ≠ 0 ∧
      (((3 : ℕ) : ℝ) + 1) * 2 ^ 3 + (((3 : ℕ) : ℝ) - 1) * 5 ≠ 0) ∧
    halley_step 3 (2 : ℝ) 5 =
      2 * ((((3 : ℕ) : ℝ) - 1) * 2 ^ 3 + (((3 : ℕ) : ℝ) + 1) * 5) /
        ((((3 : ℕ) : ℝ) + 1) * 2 ^ 3 + (((3 : ℕ) : ℝ) - 1) * 5) :=
  ⟨⟨by norm_num, by norm_num, by norm_num, by norm_num⟩,
    halley_step_closed_form 3 (by norm_num) (by norm_num) 2 5 (by norm_num) (by norm_num)⟩

/-- C12: exact roots are fixed points of the refinement: for every degree `n ≥ 2` and
every real `x0 ≠ 0`, if `x0^n = value` then `fx = 0`, the divisor `denom` is non-zero,
and `halley_step<n>(x0, value) = x0`. -/
theorem halley_step_fixed_point (n : Nat) (h2 : 2 ≤ n) (x0 value : ℝ) (hx : x0 ≠ 0)
    (h : x0 ^ n = value) :
    halley_fx n x0 value = 0 ∧ halley_denom n x0 value ≠ 0 ∧ halley_step n x0 value = x0 := by
  have hfx : halley_fx n x0 value = 0 := by
    rw [halley_fx, ct_pow_pow, h, sub_self]
  have hn : (n : ℝ) ≠ 0 := by
    have : n ≠ 0 := by omega
    exact_mod_cast this
  have hfpx : halley_fpx n x0 ≠ 0 := by
    rw [halley_fpx, ct_pow_pow]
    exact mul_ne_zero hn (pow_ne_zero _ hx)
  refine ⟨hfx, ?_, ?_⟩
  · rw [halley_denom, hfx, zero_mul, sub_zero]
    exact mul_ne_zero (mul_ne_zero two_ne_zero hfpx) hfpx
  · rw [halley_step, halley_numer, hfx, mul_zero, zero_mul, zero_div, sub_zero]

/-- C12 (witness): `2` is a fixed point of the square-root refinement of `4`. -/
theorem halley_step_fixed_point_witness :
    (2 ≤ 2 ∧ (2 : ℝ) ≠ 0 ∧ (2 : ℝ) ^ 2 = 4) ∧ halley_step 2 (2 : ℝ) 4 = 2 :=
  ⟨⟨by norm_num, by norm_num, by norm_num⟩,
    (halley_step_fixed_point 2 (by norm_num) 2 4 (by norm_num) (by norm_num)).2.2⟩

/-- C13 (as stated, fails): with the magic constant `M = 0xC0000000` and degree `n = 2`,
the inputs `1.0f < 2.0f` (`a = 0x3f800000 ≤ b = 0x40000000`, `b / n ≤ M`: no wrap) give
the guess patterns `0xA0400000 > 0xA0000000`, but these have the sign bit set and the
initial guess increases with the input, from `-(3/2) * 2^-63` to `-2^-63`. Where the
subtraction wraps the same happens with the constant of the source: for
`approx_sqrt(float)` the inputs `4.0f < 8.0f` give the guess patterns
`0xff7b67ad > 0xff3b67ad`, and the initial guess increases. -/
theorem bit_trick_guess_increases :
    (1 ≤ 2 ∧ 0x3f800000 ≤ 0x40000000 ∧ 0x40000000 / 2 ≤ 0xC0000000) ∧
    float_value 0x3f800000 = some 1 ∧ float_value 0x40000000 = some 2 ∧
    float_guess_bits 0xC0000000 2 0x3f800000 = 0xA0400000 ∧
    float_guess_bits 0xC0000000 2 0x40000000 = 0xA0000000 ∧
    float_value 0xA0400000 = some (-(3 / 2) / 2 ^ 63) ∧
    float_value 0xA0000000 = some (-1 / 2 ^ 63) ∧
    result_lt (float_value (float_guess_bits 0xC0000000 2 0x3f800000))
      (float_value (float_guess_bits 0xC0000000 2 0x40000000)) ∧
    float_value 0x40800000 = some 4 ∧ float_value 0x41000000 = some 8 ∧
    float_guess_bits 0x1fbb67ad 2 0x40800000 = 0xff7b67ad ∧
    float_guess_bits 0x1fbb67ad 2 0x41000000 = 0xff3b67ad ∧
    result_lt (float_value (float_guess_bits 0x1fbb67ad 2 0x40800000))
      (float_value (float_guess_bits 0x1fbb67ad 2 0x41000000)) := by
  have g1 : float_guess_bits 0xC0000000 2 0x3f800000 = 0xA0400000 := by
    norm_num [float_guess_bits, sub_u32]
  have g2 : float_guess_bits 0xC0000000 2 0x40000000 = 0xA0000000 := by
    norm_num [float_guess_bits, sub_u32]
  have v1 : float_value 0xA0400000 = some (-(3 / 2) / 2 ^ 63) := by
    norm_num [float_value, ieee_value]
  have v2 : float_value 0xA0000000 = some (-1 / 2 ^ 63) := by
    norm_num [float_value, ieee_value]
  have g3 : float_guess_bits 0x1fbb67ad 2 0x40800000 = 0xff7b67ad := by
    norm_num [float_guess_bits, sub_u32]
  have g4 : float_guess_bits 0x1fbb67ad 2 0x41000000 = 0xff3b67ad := by
    norm_num [float_guess_bits, sub_u32]
  refine ⟨by norm_num, by norm_num [float_value, ieee_value],
    by norm_num [float_value, ieee_value], g1, g2, v1, v2, ?_,
    by norm_num [float_value, ieee_value], by norm_num [float_value, ieee_value], g3, g4, ?_⟩
  · rw [g1, g2, v1, v2]
    norm_num [result_lt]
  · rw [g3, g4]
    norm_num [float_value, ieee_value, result_lt]

/-- C13 (amended): for every magic constant `M` and degree `n ≥ 1` the map
`bits ↦ M - bits / n` is non-increasing wherever it does not wrap: for `a ≤ b` with
`b / n ≤ M`, `M - b / n ≤ M - a / n`, strictly when `b ≥ a + n` (32-bit and 64-bit
subtraction alike). Non-negative finite floats are ordered like their bit patterns; so
when moreover `M` is below the pattern of infinity (`0x7f800000`, `0x7ff0000000000000`),
the initial guess does not increase when the input increases. -/
theorem bit_trick_antitone (M n a b : Nat) (hn : 1 ≤ n) (hab : a ≤ b) (hnw : b / n ≤ M) :
    (M < 2 ^ 32 →
      float_guess_bits M n b = M - b / n ∧ float_guess_bits M n a = M - a / n ∧
      float_guess_bits M n b ≤ float_guess_bits M n a ∧
      (a + n ≤ b → float_guess_bits M n b < float_guess_bits M n a)) ∧
    (M < 2 ^ 64 →
      double_guess_bits M n b = M - b / n ∧ double_guess_bits M n a = M - a / n ∧
      double_guess_bits M n b ≤ double_guess_bits M n a ∧
      (a + n ≤ b → double_guess_bits M n b < double_guess_bits M n a)) ∧
    (b < 0x7f800000 →
      result_le (float_value a) (float_value b) ∧
      (a < b ↔ result_lt (float_value a) (float_value b))) ∧
    (b < 0x7ff0000000000000 →
      result_le (double_value a) (double_value b) ∧
      (a < b ↔ result_lt (double_value a) (double_value b))) ∧
    (M < 0x7f800000 →
      result_le (float_value (float_guess_bits M n b))
        (float_value (float_guess_bits M n a))) ∧
    (M < 0x7ff0000000000000 →
      result_le (double_value (double_guess_bits M n b))
        (double_value (double_guess_bits M n a))) := by
  have hdiv : a / n ≤ b / n := Nat.div_le_div_right hab
  have hstrict : a + n ≤ b → a / n + 1 ≤ b / n := div_succ_le_of_add_le n a b hn
  have h32 : M < 2 ^ 32 →
      float_guess_bits M n b = M - b / n ∧ float_guess_bits M n a = M - a / n := by
    intro hM
    exact ⟨sub_u32_no_wrap M _ hM hnw, sub_u32_no_wrap M _ hM (le_trans hdiv hnw)⟩
  have h64 : M < 2 ^ 64 →
      double_guess_bits M n b = M - b / n ∧ double_guess_bits M n a = M - a / n := by
    intro hM
    exact ⟨sub_u64_no_wrap M _ hM hnw, sub_u64_no_wrap M _ hM (le_trans hdiv hnw)⟩
  have hord : ∀ eb mb : Nat, b < (2 ^ eb - 1) * 2 ^ mb →
      result_le (ieee_value eb mb a) (ieee_value eb mb b) ∧
      (a < b ↔ result_lt (ieee_value eb mb a) (ieee_value eb mb b)) := by
    intro eb mb hb
    refine ⟨ieee_value_le eb mb a b hab hb, fun h => ieee_value_lt eb mb a b h hb, fun h => ?_⟩
    rcases Nat.eq_or_lt_of_le hab with he | hlt
    · subst he
      rw [ieee_value_of_finite eb mb a hb] at h
      simp only [result_lt, lt_self_iff_false] at h
    · exact hlt
  have hf : b < 0x7f800000 → b < (2 ^ 8 - 1) * 2 ^ 23 := by
    intro hb
    norm_num
    omega
  have hd : b < 0x7ff0000000000000 → b < (2 ^ 11 - 1) * 2 ^ 52 := by
    intro hb
    norm_num
    omega
  have hle : M - b / n ≤ M - a / n := by omega
  refine ⟨fun hM => ?_, fun hM => ?_, fun hb => hord 8 23 (hf hb),
    fun hb => hord 11 52 (hd hb), fun hM => ?_, fun hM => ?_⟩
  · obtain ⟨e1, e2⟩ := h32 hM
    rw [e1, e2]
    exact ⟨rfl, rfl, hle, fun h => by have := hstrict h; omega⟩
  · obtain ⟨e1, e2⟩ := h64 hM
    rw [e1, e2]
    exact ⟨rfl, rfl, hle, fun h => by have := hstrict h; omega⟩
  · obtain ⟨e1, e2⟩ := h32 (by omega)
    have hfin : M - a / n < (2 ^ 8 - 1) * 2 ^ 23 :=
      lt_of_le_of_lt (Nat.sub_le _ _) (by norm_num; omega)
    rw [e1, e2]
    exact ieee_value_le 8 23 (M - b / n) (M - a / n) hle hfin
  · obtain ⟨e1, e2⟩ := h64 (by omega)
    have hfin : M - a / n < (2 ^ 11 - 1) * 2 ^ 52 :=
      lt_of_le_of_lt (Nat.sub_le _ _) (by norm_num; omega)
    rw [e1, e2]
    exact ieee_value_le 11 52 (M - b / n) (M - a / n) hle hfin

/-- C13 (witness): the amended statement for `approx_cbrt(float)` (`M = 0x2a511949`,
`n = 3`) at the inputs `1.0f` and `8.0f`. -/
theorem bit_trick_antitone_witness :
    (1 ≤ 3 ∧ 0x3f800000 ≤ 0x41000000 ∧ 0x41000000 / 3 ≤ 0x2a511949) ∧
    result_le (float_value (float_guess_bits 0x2a511949 3 0x41000000))
      (float_value (float_guess_bits 0x2a511949 3 0x3f800000)) :=
  ⟨by norm_num,
    (bit_trick_antitone 0x2a511949 3 0x3f800000 0x41000000 (by norm_num) (by norm_num)
      (by norm_num)).2.2.2.2.1 (by norm_num)⟩

/-- C14: in single-precision `approx_sqrt` (magic `0x1fbb67ad`, `n = 2`), for every
input bit pattern in `[0x3f800000, 0x7f7fffff]` (every finite `x ≥ 1.0`), `bits / 2`
exceeds the magic constant, so `magic - bits / 2` wraps modulo `2 ^ 32`; the resulting
initial-guess bit pattern lies in `[0xdffb67ae, 0xfffb67ad]` (both ends are attained)
and has its sign bit set. The patterns of the interval have a finite value `≥ 1`, and
every 32-bit pattern with a finite value `≥ 1` is in the interval. -/
theorem approx_sqrt_float_guess_wraps (bits : Nat) (hlo : 0x3f800000 ≤ bits)
    (hhi : bits ≤ 0x7f7fffff) :
    result_le (some 1) (float_value bits) ∧
    approx_sqrt_float bits =
      halley_step_checked 2 (float_value (float_guess_bits 0x1fbb67ad 2 bits))
        (float_value bits) ∧
    0x1fbb67ad < bits / 2 ∧
    float_guess_bits 0x1fbb67ad 2 bits = 0x1fbb67ad + 2 ^ 32 - bits / 2 ∧
    0xdffb67ae ≤ float_guess_bits 0x1fbb67ad 2 bits ∧
    float_guess_bits 0x1fbb67ad 2 bits ≤ 0xfffb67ad ∧
    float_guess_bits 0x1fbb67ad 2 bits / 2 ^ 31 % 2 = 1 ∧
    float_guess_bits 0x1fbb67ad 2 0x7f7fffff = 0xdffb67ae ∧
    float_guess_bits 0x1fbb67ad 2 0x3f800000 = 0xfffb67ad ∧
    (∀ c : Nat, c < 2 ^ 32 → result_le (some 1) (float_value c) →
      0x3f800000 ≤ c ∧ c ≤ 0x7f7fffff) := by
  have hone : float_value 0x3f800000 = some 1 := by norm_num [float_value, ieee_value]
  have hval : result_le (some 1) (float_value bits) := by
    rw [← hone]
    exact ieee_value_le 8 23 _ _ hlo (by norm_num; omega)
  have hg : float_guess_bits 0x1fbb67ad 2 bits = 0x1fbb67ad + 2 ^ 32 - bits / 2 := by
    unfold float_guess_bits sub_u32
    omega
  refine ⟨hval, rfl, by omega, hg, ?_, ?_, ?_, by norm_num [float_guess_bits, sub_u32],
    by norm_num [float_guess_bits, sub_u32], float_value_ge_one⟩
  · rw [hg]; omega
  · rw [hg]; omega
  · rw [hg]; omega

/-- C14 (witness): the statement at `x = 4.0f` (`0x40800000`), whose initial guess is
the pattern `0xff7b67ad`. -/
theorem approx_sqrt_float_guess_wraps_witness :
    (0x3f800000 ≤ 0x40800000 ∧ 0x40800000 ≤ 0x7f7fffff) ∧
    float_guess_bits 0x1fbb67ad 2 0x40800000 / 2 ^ 31 % 2 = 1 :=
  ⟨by norm_num,
    (approx_sqrt_float_guess_wraps 0x40800000 (by norm_num) (by norm_num)).2.2.2.2.2.2.1⟩

/-- C15: `ct_pow` is a total function of its exponent: `n / 2 < n` for every `n ≥ 1`,
so halving `n` reaches the base case `0` (after at most `n` steps), where the result is
`1`; an odd `n` contributes exactly one extra factor of `x` (`x * part * part`), an even
`n ≥ 1` none (`part * part`), with `part = ct_pow<n / 2>(x)`. -/
theorem ct_pow_total {T : Type} [Mul T] [One T] (n : Nat) (x : T) :
    (1 ≤ n → n / 2 < n) ∧
    (∃ k, k ≤ n ∧ (fun m => m / 2)^[k] n = 0) ∧
    ct_pow 0 x = 1 ∧
    (n % 2 = 1 → ct_pow n x = x * ct_pow (n / 2) x * ct_pow (n / 2) x) ∧
    (1 ≤ n → n % 2 = 0 → ct_pow n x = ct_pow (n / 2) x * ct_pow (n / 2) x) := by
  refine ⟨fun h => by omega, ?_, ct_pow_zero x, fun h => ?_, fun h1 h => ?_⟩
  · induction n using Nat.strong_induction_on with
    | _ n ih =>
      by_cases hn : n = 0
      · exact ⟨0, by omega, by simp [hn]⟩
      · obtain ⟨k, hk, hit⟩ := ih (n / 2) (by omega)
        exact ⟨k + 1, by omega, by rw [Function.iterate_succ_apply]; exact hit⟩
  · rw [ct_pow_pos n (by omega), Nat.and_one_is_mod, h]
    simp
  · rw [ct_pow_pos n (by omega), Nat.and_one_is_mod, h]
    simp

end approximate_roots
